import Mathlib

/-
Verification of the PermissionGraph repository (src/app.py).

The Python module stores a directed typed graph (nodes are identities or
resources, edges are containment / permission / membership relations) and
answers two queries: ancestor chains over containment edges (with
multi-parent detection) and effective permissions of an identity (direct
grants expanded to all descendants).

Embedding notes:
* Python `Node.__eq__` / `Edge.__eq__` compare only (type, id) resp.
  (src_node, dst_node, type); set and dict membership in the source uses
  this equality.  We model it with explicit Boolean functions `Node.beq`
  and `Edge.beq` and membership helpers `memN` / `memE`, and keep full
  structural equality (`DecidableEq`) for Lean-level reasoning.
* The Python `Graph` keeps a node set, an edge set, two adjacency dicts
  (append-ordered lists per node) and a `(type, id)` node-lookup dict.
  All writers (`add_node`, `add_edge`) keep these in sync, so we represent
  the state by the insertion-ordered `nodes` and `edges` lists alone; the
  per-node adjacency list of the dict equals the filter of the global
  insertion-ordered edge list, and the lookup dict equals `find?` over the
  insertion-ordered node list (no duplicate keys are ever inserted).
* `get_neighbors` returns `list(set(...))`; a Python set iterates in an
  unspecified (hash-dependent) order.  We determinize to first-occurrence
  order (`dedupN`), one of the orders the source can produce.
* The two `while` loops are modelled as fuel-indexed recursions; the fuel
  chosen for `get_resource_hierarchy` is proven sufficient below
  (`hierGo_stable`), and the descendant walk's fuel dominates its maximal
  iteration count (at most `(edges+1) * edges + 1` pops).
* `raise ValueError(...)` in the ancestor walk is modelled as
  `Except.error` carrying the data interpolated into the message: the
  offending node and the list of its parents' ids.
-/

namespace PermissionGraph

inductive NodeType where
  | IDENTITY
  | RESOURCE
  | ORGANIZATION
  | FOLDER
  | PROJECT
  | BILLING_ACCOUNT
  | BUCKET
  | USER
  | SERVICE_ACCOUNT
  | GROUP
  | DOMAIN
deriving DecidableEq

/-- The `.value` string of each `NodeType` enum member in the source. -/
def NodeType.value : NodeType → String
  | .IDENTITY => "identity"
  | .RESOURCE => "resource"
  | .ORGANIZATION => "organization"
  | .FOLDER => "folder"
  | .PROJECT => "project"
  | .BILLING_ACCOUNT => "billing_account"
  | .BUCKET => "bucket"
  | .USER => "user"
  | .SERVICE_ACCOUNT => "service_account"
  | .GROUP => "group"
  | .DOMAIN => "domain"

inductive EdgeType where
  | PARENT_CHILD
  | PERMISSION
  | MEMBER
deriving DecidableEq

/-- The `.value` string of each `EdgeType` enum member in the source. -/
def EdgeType.value : EdgeType → String
  | .PARENT_CHILD => "parent_child"
  | .PERMISSION => "permission"
  | .MEMBER => "member"

inductive EdgeDirection where
  | OUTGOING
  | INCOMING
  | BOTH
deriving DecidableEq

/-- A node: `Node(type, id, metadata)`.  Metadata is an open string map,
modelled as an association list. -/
structure Node where
  type : NodeType
  id : String
  metadata : List (String × String)
deriving DecidableEq

/-- `Node.__eq__`: two nodes are equal iff `type` and `id` match
(metadata is ignored). -/
def Node.beq (a b : Node) : Bool :=
  a.type == b.type && a.id == b.id

/-- An edge: `Edge(src_node, dst_node, type, metadata)`. -/
structure Edge where
  src_node : Node
  dst_node : Node
  type : EdgeType
  metadata : List (String × String)
deriving DecidableEq

/-- `Edge.__eq__`: equality by `(src_node, dst_node, type)` using node
equality; metadata (e.g. the role of a grant) is ignored. -/
def Edge.beq (a b : Edge) : Bool :=
  Node.beq a.src_node b.src_node && Node.beq a.dst_node b.dst_node && a.type == b.type

/-- Membership in a node collection under Python node equality
(`node in self.nodes`, set membership). -/
def memN (l : List Node) (n : Node) : Bool :=
  l.any (fun m => Node.beq m n)

/-- Membership in an edge collection under Python edge equality
(`edge in self.edges`, set membership). -/
def memE (l : List Edge) (e : Edge) : Bool :=
  l.any (fun f => Edge.beq f e)

/-- The graph state: the insertion-ordered node and edge collections.
The adjacency dicts and the `(type, id)` lookup dict of the source are
derived views of these lists (see the embedding notes above). -/
structure Graph where
  nodes : List Node
  edges : List Edge
deriving DecidableEq

/-- `Graph.__init__`: empty store. -/
def Graph.empty : Graph := ⟨[], []⟩

/-- `Graph.add_node`: add the node if absent (by `(type, id)` equality);
also creates its (empty) adjacency entries and lookup entry. -/
def Graph.add_node (g : Graph) (n : Node) : Graph :=
  if memN g.nodes n then g else { g with nodes := g.nodes ++ [n] }

/-- `Graph.add_edge`: implicitly insert both endpoints, then add the edge
if absent (by `(src, dst, type)` equality), appending it to both
adjacency lists. -/
def Graph.add_edge (g : Graph) (e : Edge) : Graph :=
  let g1 := (g.add_node e.src_node).add_node e.dst_node
  if memE g1.edges e then g1 else { g1 with edges := g1.edges ++ [e] }

/-- `Graph.get_node`: exact lookup by `(type, id)`, `None` when absent. -/
def Graph.get_node (g : Graph) (node_type : NodeType) (node_id : String) : Option Node :=
  g.nodes.find? (fun n => n.type == node_type && n.id == node_id)

/-- The optional `if edge_type:` filter shared by the two edge queries. -/
def filterByType (es : List Edge) (edge_type : Option EdgeType) : List Edge :=
  match edge_type with
  | some t => es.filter (fun e => e.type == t)
  | none => es

/-- `Graph.get_outgoing_edges`: the adjacency list of `node` (the filter of
the insertion-ordered edge list by source), optionally filtered by type. -/
def Graph.get_outgoing_edges (g : Graph) (node : Node) (edge_type : Option EdgeType) :
    List Edge :=
  filterByType (g.edges.filter (fun e => Node.beq e.src_node node)) edge_type

/-- `Graph.get_incoming_edges`: symmetric to `get_outgoing_edges`. -/
def Graph.get_incoming_edges (g : Graph) (node : Node) (edge_type : Option EdgeType) :
    List Edge :=
  filterByType (g.edges.filter (fun e => Node.beq e.dst_node node)) edge_type

/-- Collapse duplicates (by node equality) keeping first occurrences; this
determinizes the `list(neighbors_set)` conversion of the source. -/
def dedupN (l : List Node) : List Node :=
  l.foldl (fun acc n => if memN acc n then acc else acc ++ [n]) []

/-- `Graph.get_neighbors`: destinations of filtered outgoing edges and/or
sources of filtered incoming edges, duplicates collapsed. -/
def Graph.get_neighbors (g : Graph) (node : Node) (edge_type : Option EdgeType)
    (direction : EdgeDirection) : List Node :=
  let outs := if direction = .OUTGOING ∨ direction = .BOTH then
    (g.get_outgoing_edges node edge_type).map (fun e => e.dst_node) else []
  let ins := if direction = .INCOMING ∨ direction = .BOTH then
    (g.get_incoming_edges node edge_type).map (fun e => e.src_node) else []
  dedupN (outs ++ ins)

/-- The `while stack:` loop of `Graph.get_descendants`, fuel-indexed.
Pop the head, skip it if visited, otherwise mark it visited and append its
not-yet-visited children to the result and (reversed, head = next pop) to
the stack. -/
def descGo (g : Graph) (edge_type : EdgeType) :
    Nat → List Node → List Node → List Node → List Node
  | _, [], _, descendants => descendants
  | 0, _ :: _, _, descendants => descendants
  | fuel + 1, current :: stack, visited, descendants =>
    if memN visited current then
      descGo g edge_type fuel stack visited descendants
    else
      let visited' := current :: visited
      let children := g.get_neighbors current (some edge_type) EdgeDirection.OUTGOING
      let newOnes := children.filter (fun c => !(memN visited' c))
      descGo g edge_type fuel (newOnes.reverse ++ stack) visited' (descendants ++ newOnes)

/-- `Graph.get_descendants`: all nodes reachable over outgoing edges of the
given type, by the stack walk above.  The fuel dominates the walk's
iteration count (at most `1 + (edges+1) * edges` pops ever happen). -/
def Graph.get_descendants (g : Graph) (node : Node) (edge_type : EdgeType) : List Node :=
  descGo g edge_type ((g.edges.length + 1) * (g.edges.length + 1)) [node] [] []

/-- The data carried by the `ValueError` raised on a tree violation: the
offending node and the ids of all its parents. -/
structure StructuralViolation where
  node : Node
  parent_ids : List String
deriving DecidableEq

/-- The `while current and current not in visited:` loop of
`Graph.get_resource_hierarchy`, fuel-indexed.  Stop when the current node
was already visited; fail when it has more than one incoming edge of the
given type; follow the unique parent when there is one; stop at a root. -/
def hierGo (g : Graph) (edge_type : EdgeType) :
    Nat → Node → List Node → List Node → Except StructuralViolation (List Node)
  | 0, _, _, ancestors => Except.ok ancestors
  | fuel + 1, current, visited, ancestors =>
    if memN visited current then Except.ok ancestors
    else
      let parent_edges := g.get_incoming_edges current (some edge_type)
      if 1 < parent_edges.length then
        Except.error ⟨current, parent_edges.map (fun e => e.src_node.id)⟩
      else
        match parent_edges with
        | [e] => hierGo g edge_type fuel e.src_node (current :: visited) (ancestors ++ [e.src_node])
        | _ => Except.ok ancestors

/-- `Graph.get_resource_hierarchy`: the ancestor chain of `node`, nearest
first.  The fuel `edges + 2` strictly dominates the number of loop
iterations (proven by `hierGo_stable` below). -/
def Graph.get_resource_hierarchy (g : Graph) (node : Node) (edge_type : EdgeType) :
    Except StructuralViolation (List Node) :=
  hierGo g edge_type (g.edges.length + 2) node [] []

/-- `edge.metadata.get ('role', '')`. -/
def roleOf (e : Edge) : String :=
  (e.metadata.lookup "role").getD ""

/-- The tuples emitted for one permission edge: the directly granted
resource first, then every descendant, all with the grant's role. -/
def permBlock (g : Graph) (e : Edge) : List (String × String × String) :=
  (e.dst_node.id, e.dst_node.type.value, roleOf e) ::
    (g.get_descendants e.dst_node EdgeType.PARENT_CHILD).map
      (fun d => (d.id, d.type.value, roleOf e))

/-- `Graph.get_identity_permissions`: empty for an unknown identity,
otherwise the concatenation of the per-grant blocks in the adjacency-list
order of the identity's outgoing permission edges. -/
def Graph.get_identity_permissions (g : Graph) (identity_type : NodeType)
    (identity_id : String) : List (String × String × String) :=
  match g.get_node identity_type identity_id with
  | none => []
  | some identity_node =>
    let permission_edges := g.get_outgoing_edges identity_node (some EdgeType.PERMISSION)
    permission_edges.flatMap (fun e => permBlock g e)

/-- A construction step of the store: the only two mutating operations. -/
inductive Op where
  | addN : Node → Op
  | addE : Edge → Op

/-- Apply one construction step. -/
def applyOp (g : Graph) : Op → Graph
  | .addN n => g.add_node n
  | .addE e => g.add_edge e

/-- A graph built from the empty store by a sequence of insertions. -/
def buildGraph (ops : List Op) : Graph :=
  ops.foldl applyOp Graph.empty

/-! ### Basic lemmas about the Python equality relations -/

theorem Node.beq_iff {a b : Node} : Node.beq a b = true ↔ a.type = b.type ∧ a.id = b.id := by
  simp [Node.beq]

theorem Node.beq_refl (a : Node) : Node.beq a a = true := by
  simp [Node.beq]

theorem Node.beq_symm {a b : Node} (h : Node.beq a b = true) : Node.beq b a = true := by
  rw [Node.beq_iff] at h ⊢
  exact ⟨h.1.symm, h.2.symm⟩

theorem Node.beq_trans {a b c : Node} (h1 : Node.beq a b = true)
    (h2 : Node.beq b c = true) : Node.beq a c = true := by
  rw [Node.beq_iff] at h1 h2 ⊢
  exact ⟨h1.1.trans h2.1, h1.2.trans h2.2⟩

theorem Node.beq_comm (a b : Node) : Node.beq a b = Node.beq b a := by
  cases h1 : Node.beq a b <;> cases h2 : Node.beq b a <;> try rfl
  · rw [← h1, Node.beq_symm h2]
  · rw [← h2, Node.beq_symm h1]

theorem Edge.beq_eq_true_iff {a b : Edge} : Edge.beq a b = true ↔
    Node.beq a.src_node b.src_node = true ∧ Node.beq a.dst_node b.dst_node = true ∧
      a.type = b.type := by
  simp [Edge.beq, and_assoc]

theorem Edge.beq_self (a : Edge) : Edge.beq a a = true := by
  simp [Edge.beq, Node.beq_refl]

theorem Edge.beq_transitive {a b c : Edge} (h1 : Edge.beq a b = true)
    (h2 : Edge.beq b c = true) : Edge.beq a c = true := by
  rw [Edge.beq_eq_true_iff] at h1 h2 ⊢
  exact ⟨Node.beq_trans h1.1 h2.1, Node.beq_trans h1.2.1 h2.2.1, h1.2.2.trans h2.2.2⟩

theorem memN_eq_true_iff {l : List Node} {n : Node} :
    memN l n = true ↔ ∃ m ∈ l, Node.beq m n = true := by
  simp [memN]

theorem memN_of_beq {l : List Node} {a b : Node} (h : Node.beq a b = true)
    (ha : memN l a = true) : memN l b = true := by
  obtain ⟨m, hm, hba⟩ := memN_eq_true_iff.mp ha
  exact memN_eq_true_iff.mpr ⟨m, hm, Node.beq_trans hba h⟩

theorem memN_congr {l : List Node} {a b : Node} (h : Node.beq a b = true) :
    memN l a = memN l b := by
  cases ha : memN l a <;> cases hb : memN l b <;> try rfl
  · rw [← ha, memN_of_beq (Node.beq_symm h) hb]
  · rw [← hb, memN_of_beq h ha]

theorem memN_append (l1 l2 : List Node) (n : Node) :
    memN (l1 ++ l2) n = (memN l1 n || memN l2 n) := by
  simp [memN]

theorem memN_cons (c : Node) (l : List Node) (n : Node) :
    memN (c :: l) n = (Node.beq c n || memN l n) := by
  simp [memN]

theorem memN_append_single (l : List Node) (n : Node) : memN (l ++ [n]) n = true := by
  simp [memN_append, memN_cons, Node.beq_refl]

theorem memE_eq_true_iff {l : List Edge} {e : Edge} :
    memE l e = true ↔ ∃ f ∈ l, Edge.beq f e = true := by
  simp [memE]

theorem memE_of_beq {l : List Edge} {a b : Edge} (h : Edge.beq a b = true)
    (ha : memE l a = true) : memE l b = true := by
  obtain ⟨f, hf, hba⟩ := memE_eq_true_iff.mp ha
  exact memE_eq_true_iff.mpr ⟨f, hf, Edge.beq_transitive hba h⟩

/-! ### Basic lemmas about the insertion operations -/

theorem add_node_edges (g : Graph) (n : Node) : (g.add_node n).edges = g.edges := by
  unfold Graph.add_node
  split <;> rfl

theorem memN_add_node_self (g : Graph) (n : Node) : memN (g.add_node n).nodes n = true := by
  unfold Graph.add_node
  split
  · assumption
  · exact memN_append_single g.nodes n

theorem memN_add_node_mono (g : Graph) (n m : Node) (h : memN g.nodes m = true) :
    memN (g.add_node n).nodes m = true := by
  unfold Graph.add_node
  split
  · exact h
  · simp [memN_append, h]

theorem add_node_noop (g : Graph) (n : Node) (h : memN g.nodes n = true) :
    g.add_node n = g := by
  unfold Graph.add_node
  simp [h]

theorem add_edge_edges (g : Graph) (e : Edge) :
    (g.add_edge e).edges = if memE g.edges e then g.edges else g.edges ++ [e] := by
  simp only [Graph.add_edge]
  split <;> simp_all [add_node_edges]

theorem add_edge_nodes (g : Graph) (e : Edge) :
    (g.add_edge e).nodes = ((g.add_node e.src_node).add_node e.dst_node).nodes := by
  simp only [Graph.add_edge]
  split <;> rfl

theorem memE_add_edge_self (g : Graph) (e : Edge) : memE (g.add_edge e).edges e = true := by
  rw [add_edge_edges]
  split
  · assumption
  · simp [memE, Edge.beq_self]

theorem memN_add_edge_src (g : Graph) (e : Edge) :
    memN (g.add_edge e).nodes e.src_node = true := by
  rw [add_edge_nodes]
  exact memN_add_node_mono _ _ _ (memN_add_node_self g e.src_node)

theorem memN_add_edge_dst (g : Graph) (e : Edge) :
    memN (g.add_edge e).nodes e.dst_node = true := by
  rw [add_edge_nodes]
  exact memN_add_node_self _ e.dst_node

theorem add_edge_noop (g : Graph) (e : Edge) (hs : memN g.nodes e.src_node = true)
    (hd : memN g.nodes e.dst_node = true) (he : memE g.edges e = true) :
    g.add_edge e = g := by
  simp only [Graph.add_edge]
  rw [add_node_noop _ _ hs, add_node_noop _ _ hd]
  simp [he]

theorem add_node_dup (g : Graph) (n1 n2 : Node) (h : Node.beq n1 n2 = true) :
    (g.add_node n1).add_node n2 = g.add_node n1 :=
  add_node_noop _ _ (memN_of_beq h (memN_add_node_self g n1))

theorem add_edge_dup (g : Graph) (e1 e2 : Edge) (h : Edge.beq e1 e2 = true) :
    (g.add_edge e1).add_edge e2 = g.add_edge e1 := by
  obtain ⟨hs, hd, _⟩ := Edge.beq_eq_true_iff.mp h
  exact add_edge_noop _ _ (memN_of_beq hs (memN_add_edge_src g e1))
    (memN_of_beq hd (memN_add_edge_dst g e1)) (memE_of_beq h (memE_add_edge_self g e1))

/-! ### The node-lookup view agrees with node membership -/

theorem find?_isSome_eq_any {α : Type} (l : List α) (p : α → Bool) :
    (l.find? p).isSome = l.any p := by
  induction l with
  | nil => rfl
  | cons a l ih =>
    cases h : p a
    · rw [List.find?_cons_of_neg _ (by simp [h]), List.any_cons, h, ih]
      simp
    · rw [List.find?_cons_of_pos _ h, List.any_cons, h]
      simp

theorem get_node_isSome_eq (g : Graph) (m : Node) :
    (g.get_node m.type m.id).isSome = memN g.nodes m := by
  unfold Graph.get_node memN
  exact find?_isSome_eq_any g.nodes (fun n => Node.beq n m)

theorem get_node_none_add_node (g : Graph) (n : Node) (t : NodeType) (i : String)
    (h : g.get_node t i = none) (hn : (n.type == t && n.id == i) = false) :
    (g.add_node n).get_node t i = none := by
  unfold Graph.add_node
  split
  · exact h
  · unfold Graph.get_node at h ⊢
    rw [List.find?_eq_none] at h ⊢
    intro x hx
    rcases List.mem_append.mp hx with hx | hx
    · exact h x hx
    · rw [List.mem_singleton] at hx
      subst hx
      simp [hn]

theorem get_node_add_edge (g : Graph) (e : Edge) (t : NodeType) (i : String) :
    (g.add_edge e).get_node t i =
      ((g.add_node e.src_node).add_node e.dst_node).get_node t i := by
  unfold Graph.get_node
  rw [add_edge_nodes]

/-! ### Fixtures used by the witnesses -/

def uAlice : Node := ⟨NodeType.USER, "alice", []⟩

def rFolderF : Node := ⟨NodeType.FOLDER, "folderF", []⟩

def rProjectP : Node := ⟨NodeType.PROJECT, "projectP", []⟩

def eGrantViewer : Edge := ⟨uAlice, rFolderF, EdgeType.PERMISSION, [("role", "viewer")]⟩

def eGrantEditor : Edge := ⟨uAlice, rFolderF, EdgeType.PERMISSION, [("role", "editor")]⟩

def eFolderProject : Edge := ⟨rFolderF, rProjectP, EdgeType.PARENT_CHILD, []⟩

/-! ### C5: duplicate edge with different attributes is a silent no-op -/

/-- C5: for every graph state and every pair of edges that agree on source,
destination and kind under the store's edge equality (attributes may
differ, e.g. two roles), inserting the second after the first is a silent
no-op: the whole graph state (hence the edge set, the edge count, and both
adjacency views, which are derived from the state) is unchanged; and when
the first edge was not already present the store keeps the first edge, with
its attributes. -/
theorem C5_duplicate_edge_insert_noop (g : Graph) (e1 e2 : Edge)
    (h : Edge.beq e1 e2 = true) :
    (g.add_edge e1).add_edge e2 = g.add_edge e1 ∧
      (memE g.edges e1 = false → e1 ∈ ((g.add_edge e1).add_edge e2).edges) := by
  refine ⟨add_edge_dup g e1 e2 h, fun hnew => ?_⟩
  rw [add_edge_dup g e1 e2 h, add_edge_edges, hnew]
  simp

/-- C5 witness: a viewer grant followed by an editor grant between the same
identity and resource leaves the state unchanged and keeps the viewer
edge. -/
theorem C5_witness :
    (Graph.empty.add_edge eGrantViewer).add_edge eGrantEditor =
        Graph.empty.add_edge eGrantViewer ∧
      eGrantViewer ∈ ((Graph.empty.add_edge eGrantViewer).add_edge eGrantEditor).edges :=
  ⟨(C5_duplicate_edge_insert_noop Graph.empty eGrantViewer eGrantEditor (by decide)).1,
    (C5_duplicate_edge_insert_noop Graph.empty eGrantViewer eGrantEditor (by decide)).2
      (by decide)⟩

/-! ### C6: insertion is idempotent -/

/-- C6: inserting the same node (equal by `(kind, id)`) or the same edge
(equal by `(source, destination, kind)`) twice is idempotent: the second
insertion leaves the whole graph state — hence node count, edge count and
the derived adjacency and lookup views — unchanged, and no error exists
(insertion is total). -/
theorem C6_insert_idempotent (g : Graph) (n1 n2 : Node) (e1 e2 : Edge)
    (hn : Node.beq n1 n2 = true) (he : Edge.beq e1 e2 = true) :
    (g.add_node n1).add_node n2 = g.add_node n1 ∧
      (g.add_edge e1).add_edge e2 = g.add_edge e1 :=
  ⟨add_node_dup g n1 n2 hn, add_edge_dup g e1 e2 he⟩

/-- C6 witness: re-inserting the alice node (with different metadata) and
the grant edge (with a different role) changes nothing. -/
theorem C6_witness :
    ((Graph.empty.add_node uAlice).add_node ⟨NodeType.USER, "alice", [("x", "y")]⟩ =
        Graph.empty.add_node uAlice) ∧
      (Graph.empty.add_edge eGrantViewer).add_edge eGrantEditor =
        Graph.empty.add_edge eGrantViewer :=
  C6_insert_idempotent Graph.empty uAlice ⟨NodeType.USER, "alice", [("x", "y")]⟩
    eGrantViewer eGrantEditor (by decide) (by decide)

/-! ### C7: every edge's endpoints are present -/

/-- The endpoint invariant: every stored edge's endpoints are in the node
collection. -/
def endpointsPresent (g : Graph) : Prop :=
  ∀ e ∈ g.edges, memN g.nodes e.src_node = true ∧ memN g.nodes e.dst_node = true

theorem endpointsPresent_applyOp (g : Graph) (op : Op) (h : endpointsPresent g) :
    endpointsPresent (applyOp g op) := by
  cases op with
  | addN n =>
    intro e he
    rw [applyOp] at he ⊢
    rw [add_node_edges] at he
    obtain ⟨h1, h2⟩ := h e he
    exact ⟨memN_add_node_mono _ _ _ h1, memN_add_node_mono _ _ _ h2⟩
  | addE e0 =>
    intro e he
    rw [applyOp] at he ⊢
    have hnodes : ∀ m : Node, memN g.nodes m = true →
        memN (g.add_edge e0).nodes m = true := by
      intro m hm
      rw [add_edge_nodes]
      exact memN_add_node_mono _ _ _ (memN_add_node_mono _ _ _ hm)
    rw [add_edge_edges] at he
    split at he
    · obtain ⟨h1, h2⟩ := h e he
      exact ⟨hnodes _ h1, hnodes _ h2⟩
    · rcases List.mem_append.mp he with he | he
      · obtain ⟨h1, h2⟩ := h e he
        exact ⟨hnodes _ h1, hnodes _ h2⟩
      · rw [List.mem_singleton] at he
        subst he
        exact ⟨memN_add_edge_src g e, memN_add_edge_dst g e⟩

theorem endpointsPresent_foldl :
    ∀ (ops : List Op) (g : Graph), endpointsPresent g →
      endpointsPresent (ops.foldl applyOp g)
  | [], _, h => h
  | op :: ops, g, h => endpointsPresent_foldl ops _ (endpointsPresent_applyOp g op h)

/-- C7: after any sequence of insertions starting from the empty graph,
every stored edge's source and destination are present in the node
collection and found by the `(kind, id)` lookup (inserting an edge
implicitly inserts its endpoints). -/
theorem C7_edge_endpoints_present (ops : List Op) (e : Edge)
    (he : e ∈ (buildGraph ops).edges) :
    memN (buildGraph ops).nodes e.src_node = true ∧
      memN (buildGraph ops).nodes e.dst_node = true ∧
      ((buildGraph ops).get_node e.src_node.type e.src_node.id).isSome = true ∧
      ((buildGraph ops).get_node e.dst_node.type e.dst_node.id).isSome = true := by
  have hempty : endpointsPresent Graph.empty := by
    intro e he
    simp [Graph.empty] at he
  obtain ⟨h1, h2⟩ := endpointsPresent_foldl ops Graph.empty hempty e he
  refine ⟨h1, h2, ?_, ?_⟩
  · rw [get_node_isSome_eq]
    exact h1
  · rw [get_node_isSome_eq]
    exact h2

/-- C7 witness: inserting a single grant edge into the empty graph makes
both of its endpoints present and findable. -/
theorem C7_witness :
    memN (buildGraph [Op.addE eGrantViewer]).nodes eGrantViewer.src_node = true ∧
      memN (buildGraph [Op.addE eGrantViewer]).nodes eGrantViewer.dst_node = true ∧
      ((buildGraph [Op.addE eGrantViewer]).get_node eGrantViewer.src_node.type
          eGrantViewer.src_node.id).isSome = true ∧
      ((buildGraph [Op.addE eGrantViewer]).get_node eGrantViewer.dst_node.type
          eGrantViewer.dst_node.id).isSome = true :=
  C7_edge_endpoints_present [Op.addE eGrantViewer] eGrantViewer (by decide)

/-! ### C8: unknown identity yields no permissions and no error -/

/-- Whether one insertion mentions a node with key `(t, i)` (directly or as
an edge endpoint). -/
def opTouches (t : NodeType) (i : String) : Op → Bool
  | .addN n => n.type == t && n.id == i
  | .addE e => (e.src_node.type == t && e.src_node.id == i) ||
      (e.dst_node.type == t && e.dst_node.id == i)

theorem get_node_none_applyOp (g : Graph) (op : Op) (t : NodeType) (i : String)
    (h : g.get_node t i = none) (hop : opTouches t i op = false) :
    (applyOp g op).get_node t i = none := by
  cases op with
  | addN n =>
    rw [applyOp]
    exact get_node_none_add_node g n t i h (by simpa [opTouches] using hop)
  | addE e =>
    rw [applyOp, get_node_add_edge]
    rw [opTouches, Bool.or_eq_false_iff] at hop
    exact get_node_none_add_node _ _ _ _
      (get_node_none_add_node _ _ _ _ h hop.1) hop.2

theorem get_node_none_foldl :
    ∀ (ops : List Op) (g : Graph) (t : NodeType) (i : String),
      g.get_node t i = none → (∀ op ∈ ops, opTouches t i op = false) →
      (ops.foldl applyOp g).get_node t i = none
  | [], _, _, _, h, _ => h
  | op :: ops, g, t, i, h, hops =>
    get_node_none_foldl ops _ t i
      (get_node_none_applyOp g op t i h (hops op (List.mem_cons_self op ops)))
      (fun o ho => hops o (List.mem_cons_of_mem op ho))

/-- C8: for a `(kind, id)` pair never inserted (by any insertion of the
construction sequence), the identity lookup is absent and
`get_identity_permissions` returns the empty sequence — never an error. -/
theorem C8_unknown_identity_empty (ops : List Op) (t : NodeType) (i : String)
    (h : ∀ op ∈ ops, opTouches t i op = false) :
    (buildGraph ops).get_node t i = none ∧
      (buildGraph ops).get_identity_permissions t i = [] := by
  have hnone : (buildGraph ops).get_node t i = none :=
    get_node_none_foldl ops Graph.empty t i rfl h
  exact ⟨hnone, by simp [Graph.get_identity_permissions, hnone]⟩

/-- C8 witness: a graph holding only alice's grant gives the never-inserted
user bob an absent lookup and an empty permission list. -/
theorem C8_witness :
    (buildGraph [Op.addE eGrantViewer]).get_node NodeType.USER "bob" = none ∧
      (buildGraph [Op.addE eGrantViewer]).get_identity_permissions NodeType.USER "bob" = [] :=
  C8_unknown_identity_empty [Op.addE eGrantViewer] NodeType.USER "bob" (by decide)

/-! ### Edge-query characterizations -/

theorem mem_incoming_iff (g : Graph) (n : Node) (et : EdgeType) (e : Edge) :
    e ∈ g.get_incoming_edges n (some et) ↔
      e ∈ g.edges ∧ Node.beq e.dst_node n = true ∧ e.type = et := by
  unfold Graph.get_incoming_edges filterByType
  simp [List.mem_filter, and_assoc]
  intro _
  exact and_comm

theorem mem_outgoing_iff (g : Graph) (n : Node) (et : EdgeType) (e : Edge) :
    e ∈ g.get_outgoing_edges n (some et) ↔
      e ∈ g.edges ∧ Node.beq e.src_node n = true ∧ e.type = et := by
  unfold Graph.get_outgoing_edges filterByType
  simp [List.mem_filter, and_assoc]
  intro _
  exact and_comm

/-! ### Termination measure for the ancestor walk -/

theorem length_filter_mono {α : Type} (l : List α) (p q : α → Bool)
    (h : ∀ a, p a = true → q a = true) :
    (l.filter p).length ≤ (l.filter q).length := by
  induction l with
  | nil => simp
  | cons a l ih =>
    cases hp : p a <;> cases hq : q a
    · simpa [List.filter_cons, hp, hq] using ih
    · simp only [List.filter_cons, hp, hq, if_neg, Bool.false_eq_true, if_pos,
        List.length_cons]
      exact Nat.le_succ_of_le ih
    · rw [h a hp] at hq
      cases hq
    · simpa [List.filter_cons, hp, hq] using ih

theorem length_filter_lt {α : Type} (l : List α) (p q : α → Bool)
    (hmono : ∀ a, p a = true → q a = true) (w : α) (hw : w ∈ l)
    (hqw : q w = true) (hpw : p w = false) :
    (l.filter p).length < (l.filter q).length := by
  induction l with
  | nil => cases hw
  | cons a l ih =>
    rcases List.mem_cons.mp hw with rfl | hw
    · simp only [List.filter_cons, hpw, hqw, Bool.false_eq_true, if_neg, if_pos,
        List.length_cons]
      exact Nat.lt_succ_of_le (length_filter_mono l p q hmono)
    · cases hp : p a <;> cases hq : q a
      · simpa [List.filter_cons, hp, hq] using ih hw
      · simp only [List.filter_cons, hp, hq, Bool.false_eq_true, if_neg, if_pos,
          List.length_cons]
        exact Nat.lt_succ_of_lt (ih hw)
      · rw [hmono a hp] at hq
        cases hq
      · simpa [List.filter_cons, hp, hq] using ih hw

theorem hier_measure_lt (S vis : List Node) (cur : Node)
    (hvis : memN vis cur = false) (hS : memN S cur = true) :
    (S.filter (fun v => !(memN (cur :: vis) v))).length <
      (S.filter (fun v => !(memN vis v))).length := by
  obtain ⟨m, hm, hbm⟩ := memN_eq_true_iff.mp hS
  refine length_filter_lt S _ _ ?_ m hm ?_ ?_
  · intro a ha
    rw [Bool.not_eq_true'] at ha ⊢
    rw [memN_cons, Bool.or_eq_false_iff] at ha
    exact ha.2
  · rw [Bool.not_eq_true']
    rw [memN_congr hbm]
    exact hvis
  · have hm2 : memN (cur :: vis) m = true := by
      rw [memN_cons, Node.beq_symm hbm, Bool.true_or]
    rw [hm2]
    rfl

/-! ### Single-step unfoldings of the ancestor walk -/

theorem hierGo_step_stop (g : Graph) (et : EdgeType) (fuel : Nat) (cur : Node)
    (vis anc : List Node) (hv : memN vis cur = true) :
    hierGo g et (fuel + 1) cur vis anc = Except.ok anc := by
  simp only [hierGo]
  simp [hv]

theorem hierGo_step_error (g : Graph) (et : EdgeType) (fuel : Nat) (cur : Node)
    (vis anc : List Node) (hv : memN vis cur = false)
    (hlen : 1 < (g.get_incoming_edges cur (some et)).length) :
    hierGo g et (fuel + 1) cur vis anc =
      Except.error ⟨cur, (g.get_incoming_edges cur (some et)).map
        (fun e => e.src_node.id)⟩ := by
  simp only [hierGo]
  simp [hv, hlen]

theorem hierGo_step_one (g : Graph) (et : EdgeType) (fuel : Nat) (cur : Node)
    (vis anc : List Node) (e : Edge) (hv : memN vis cur = false)
    (hpe : g.get_incoming_edges cur (some et) = [e]) :
    hierGo g et (fuel + 1) cur vis anc =
      hierGo g et fuel e.src_node (cur :: vis) (anc ++ [e.src_node]) := by
  simp only [hierGo]
  simp [hv, hpe]

theorem hierGo_step_root (g : Graph) (et : EdgeType) (fuel : Nat) (cur : Node)
    (vis anc : List Node) (hv : memN vis cur = false)
    (hpe : g.get_incoming_edges cur (some et) = []) :
    hierGo g et (fuel + 1) cur vis anc = Except.ok anc := by
  simp only [hierGo]
  simp [hv, hpe]

/-! ### The ancestor walk reaches its exit within the allotted fuel -/

theorem hierGo_stable (g : Graph) (et : EdgeType) (S : List Node)
    (hS : ∀ e ∈ g.edges, memN S e.src_node = true) :
    ∀ (fuel1 fuel2 : Nat) (cur : Node) (vis anc : List Node),
      memN S cur = true →
      (S.filter (fun v => !(memN vis v))).length < fuel1 →
      (S.filter (fun v => !(memN vis v))).length < fuel2 →
      hierGo g et fuel1 cur vis anc = hierGo g et fuel2 cur vis anc := by
  intro fuel1
  induction fuel1 with
  | zero =>
    intro fuel2 cur vis anc _ h1 _
    exact absurd h1 (Nat.not_lt_zero _)
  | succ f ih =>
    intro fuel2 cur vis anc hcur h1 h2
    cases fuel2 with
    | zero => exact absurd h2 (Nat.not_lt_zero _)
    | succ f2 =>
      cases hv : memN vis cur
      · by_cases hlen : 1 < (g.get_incoming_edges cur (some et)).length
        · rw [hierGo_step_error g et f cur vis anc hv hlen,
            hierGo_step_error g et f2 cur vis anc hv hlen]
        · rcases hpe : g.get_incoming_edges cur (some et) with _ | ⟨e, rest⟩
          · rw [hierGo_step_root g et f cur vis anc hv hpe,
              hierGo_step_root g et f2 cur vis anc hv hpe]
          · rcases rest with _ | ⟨e2, rest2⟩
            · rw [hierGo_step_one g et f cur vis anc e hv hpe,
                hierGo_step_one g et f2 cur vis anc e hv hpe]
              have hmem : e ∈ g.edges :=
                ((mem_incoming_iff g cur et e).mp
                  (by rw [hpe]; exact List.mem_singleton_self e)).1
              have hlt := hier_measure_lt S vis cur hv hcur
              exact ih f2 e.src_node (cur :: vis) (anc ++ [e.src_node]) (hS e hmem)
                (Nat.lt_of_lt_of_le hlt (Nat.lt_succ_iff.mp h1))
                (Nat.lt_of_lt_of_le hlt (Nat.lt_succ_iff.mp h2))
            · exfalso
              apply hlen
              rw [hpe]
              simp
      · rw [hierGo_step_stop g et f cur vis anc hv,
          hierGo_step_stop g et f2 cur vis anc hv]

/-! ### C9: the ancestor walk terminates, cycles stop without error -/

/-- C9: for every graph — including one whose containment edges form a
cycle — the ancestor walk terminates: its fuel-indexed unwinding has
already reached its exit at the allotted fuel (giving it any amount of
extra fuel changes nothing), and whenever the walk revisits a node in its
visited set it stops immediately, returning the ancestors collected so far
without an error.  Only the multi-parent branch produces an error. -/
theorem C9_ancestor_walk_terminates (g : Graph) (edge_type : EdgeType) (node : Node) :
    (∀ k : Nat, hierGo g edge_type (g.edges.length + 2 + k) node [] [] =
        g.get_resource_hierarchy node edge_type) ∧
      (∀ (fuel : Nat) (cur : Node) (vis anc : List Node), memN vis cur = true →
        hierGo g edge_type (fuel + 1) cur vis anc = Except.ok anc) := by
  constructor
  · intro k
    unfold Graph.get_resource_hierarchy
    have hfull : ((node :: g.edges.map (fun e => e.src_node)).filter
        (fun v => !(memN [] v))).length = g.edges.length + 1 := by
      simp [memN]
    exact hierGo_stable g edge_type (node :: g.edges.map (fun e => e.src_node))
      (fun e he => by
        rw [memN_cons]
        have hsrc : memN (g.edges.map (fun e => e.src_node)) e.src_node = true :=
          memN_eq_true_iff.mpr ⟨e.src_node, List.mem_map_of_mem _ he, Node.beq_refl _⟩
        rw [hsrc, Bool.or_true])
      (g.edges.length + 2 + k) (g.edges.length + 2) node [] []
      (by rw [memN_cons, Node.beq_refl, Bool.true_or])
      (by rw [hfull]; omega) (by rw [hfull]; omega)
  · intro fuel cur vis anc hv
    exact hierGo_step_stop g edge_type fuel cur vis anc hv

def nCyc1 : Node := ⟨NodeType.FOLDER, "cyc1", []⟩

def nCyc2 : Node := ⟨NodeType.FOLDER, "cyc2", []⟩

def cycleGraph : Graph :=
  (Graph.empty.add_edge ⟨nCyc1, nCyc2, EdgeType.PARENT_CHILD, []⟩).add_edge
    ⟨nCyc2, nCyc1, EdgeType.PARENT_CHILD, []⟩

/-- C9 witness: on a two-node containment cycle the walk's value is stable
under extra fuel, and a revisited node stops the walk with an `ok`. -/
theorem C9_witness :
    (hierGo cycleGraph EdgeType.PARENT_CHILD (cycleGraph.edges.length + 2 + 5) nCyc1 [] [] =
        cycleGraph.get_resource_hierarchy nCyc1 EdgeType.PARENT_CHILD) ∧
      hierGo cycleGraph EdgeType.PARENT_CHILD (0 + 1) nCyc1 [nCyc1] [] = Except.ok [] :=
  ⟨(C9_ancestor_walk_terminates cycleGraph EdgeType.PARENT_CHILD nCyc1).1 5,
    (C9_ancestor_walk_terminates cycleGraph EdgeType.PARENT_CHILD nCyc1).2 0 nCyc1 [nCyc1] []
      (by decide)⟩

/-! ### C2: a multi-parent node fails the ancestor walk -/

/-- C2: whenever the ancestor walk is at a not-yet-visited node with two or
more incoming containment edges it fails immediately — no partial ancestor
list is returned — with an error naming that node and listing the ids of
all of its parents; in particular, starting the walk at such a node `X`
(e.g. with containment edges P1→X and P2→X) yields exactly that error with
the parents of `X`. -/
theorem C2_multi_parent_structural_violation (g : Graph) (edge_type : EdgeType) (X : Node)
    (h2 : 2 ≤ (g.get_incoming_edges X (some edge_type)).length) :
    (∀ (fuel : Nat) (cur : Node) (vis anc : List Node), memN vis cur = false →
        2 ≤ (g.get_incoming_edges cur (some edge_type)).length →
        hierGo g edge_type (fuel + 1) cur vis anc =
          Except.error ⟨cur, (g.get_incoming_edges cur (some edge_type)).map
            (fun e => e.src_node.id)⟩) ∧
      g.get_resource_hierarchy X edge_type =
        Except.error ⟨X, (g.get_incoming_edges X (some edge_type)).map
          (fun e => e.src_node.id)⟩ := by
  have step : ∀ (fuel : Nat) (cur : Node) (vis anc : List Node), memN vis cur = false →
      2 ≤ (g.get_incoming_edges cur (some edge_type)).length →
      hierGo g edge_type (fuel + 1) cur vis anc =
        Except.error ⟨cur, (g.get_incoming_edges cur (some edge_type)).map
          (fun e => e.src_node.id)⟩ :=
    fun fuel cur vis anc hv hlen => hierGo_step_error g edge_type fuel cur vis anc hv hlen
  refine ⟨step, ?_⟩
  unfold Graph.get_resource_hierarchy
  exact step (g.edges.length + 1) X [] [] rfl h2

def nP1 : Node := ⟨NodeType.FOLDER, "P1", []⟩

def nP2 : Node := ⟨NodeType.FOLDER, "P2", []⟩

def nMulti : Node := ⟨NodeType.PROJECT, "X", []⟩

def multiParentGraph : Graph :=
  (Graph.empty.add_edge ⟨nP1, nMulti, EdgeType.PARENT_CHILD, []⟩).add_edge
    ⟨nP2, nMulti, EdgeType.PARENT_CHILD, []⟩

/-- C2 witness: with containment edges P1→X and P2→X the walk started at X
fails naming X and the parent ids P1, P2. -/
theorem C2_witness :
    2 ≤ (multiParentGraph.get_incoming_edges nMulti (some EdgeType.PARENT_CHILD)).length ∧
      multiParentGraph.get_resource_hierarchy nMulti EdgeType.PARENT_CHILD =
        Except.error ⟨nMulti, ["P1", "P2"]⟩ := by
  refine ⟨by decide, ?_⟩
  rw [(C2_multi_parent_structural_violation multiParentGraph EdgeType.PARENT_CHILD nMulti
    (by decide)).2]
  rfl

/-! ### C4: ancestors of a chain, nearest first -/

theorem two_mem_length {α : Type} {l : List α} {a b : α} (ha : a ∈ l) (hb : b ∈ l)
    (hab : a ≠ b) : 2 ≤ l.length := by
  cases l with
  | nil => cases ha
  | cons x xs =>
    cases xs with
    | nil =>
      rw [List.mem_singleton] at ha hb
      exact absurd (ha.trans hb.symm) hab
    | cons y ys =>
      simp only [List.length_cons]
      omega

/-- C4: in any graph whose containment edges around the four nodes form
exactly the chain root→A→B→C (the only containment edge into C comes from
B, into B from A, into A from root, none into root, the four nodes pairwise
distinct), the ancestor walk from C returns exactly `[B, A, root]` —
nearest ancestor first, root last. -/
theorem C4_chain_ancestors (g : Graph) (edge_type : EdgeType)
    (root A B C : Node) (eRA eAB eBC : Edge)
    (hC : g.get_incoming_edges C (some edge_type) = [eBC]) (hBCsrc : eBC.src_node = B)
    (hB : g.get_incoming_edges B (some edge_type) = [eAB]) (hABsrc : eAB.src_node = A)
    (hA : g.get_incoming_edges A (some edge_type) = [eRA]) (hRAsrc : eRA.src_node = root)
    (hroot : g.get_incoming_edges root (some edge_type) = [])
    (hBC : Node.beq B C = false) (hAC : Node.beq A C = false)
    (hAB : Node.beq A B = false) (hrC : Node.beq root C = false)
    (hrB : Node.beq root B = false) (hrA : Node.beq root A = false) :
    g.get_resource_hierarchy C edge_type = Except.ok [B, A, root] := by
  have hCB : Node.beq C B = false := (Node.beq_comm C B).trans hBC
  have hCA : Node.beq C A = false := (Node.beq_comm C A).trans hAC
  have hBA : Node.beq B A = false := (Node.beq_comm B A).trans hAB
  have hCr : Node.beq C root = false := (Node.beq_comm C root).trans hrC
  have hBr : Node.beq B root = false := (Node.beq_comm B root).trans hrB
  have hAr : Node.beq A root = false := (Node.beq_comm A root).trans hrA
  have hBCe : eBC ∈ g.edges :=
    ((mem_incoming_iff g C edge_type eBC).mp
      (by rw [hC]; exact List.mem_singleton_self eBC)).1
  have hABe : eAB ∈ g.edges :=
    ((mem_incoming_iff g B edge_type eAB).mp
      (by rw [hB]; exact List.mem_singleton_self eAB)).1
  have hne : eBC ≠ eAB := by
    intro h
    have hsrc : A = B := by rw [← hABsrc, ← h, hBCsrc]
    rw [hsrc, Node.beq_refl] at hAB
    cases hAB
  have hlen2 : 2 ≤ g.edges.length := two_mem_length hBCe hABe hne
  obtain ⟨k, hk⟩ : ∃ k, g.edges.length + 2 = k + 4 := ⟨g.edges.length - 2, by omega⟩
  have hvB : memN [C] B = false := by simp [memN, hCB]
  have hvA : memN [B, C] A = false := by simp [memN, hBA, hCA]
  have hvr : memN [A, B, C] root = false := by simp [memN, hAr, hBr, hCr]
  have s1 : hierGo g edge_type (k + 4) C [] [] = hierGo g edge_type (k + 3) B [C] [B] := by
    have h := hierGo_step_one g edge_type (k + 3) C [] [] eBC rfl hC
    rw [hBCsrc] at h
    simpa using h
  have s2 : hierGo g edge_type (k + 3) B [C] [B] =
      hierGo g edge_type (k + 2) A [B, C] [B, A] := by
    have h := hierGo_step_one g edge_type (k + 2) B [C] [B] eAB hvB hB
    rw [hABsrc] at h
    simpa using h
  have s3 : hierGo g edge_type (k + 2) A [B, C] [B, A] =
      hierGo g edge_type (k + 1) root [A, B, C] [B, A, root] := by
    have h := hierGo_step_one g edge_type (k + 1) A [B, C] [B, A] eRA hvA hA
    rw [hRAsrc] at h
    simpa using h
  have s4 : hierGo g edge_type (k + 1) root [A, B, C] [B, A, root] =
      Except.ok [B, A, root] :=
    hierGo_step_root g edge_type k root [A, B, C] [B, A, root] hvr hroot
  unfold Graph.get_resource_hierarchy
  rw [hk, s1, s2, s3, s4]

def nRoot : Node := ⟨NodeType.ORGANIZATION, "root", []⟩

def nChainA : Node := ⟨NodeType.FOLDER, "A", []⟩

def nChainB : Node := ⟨NodeType.FOLDER, "B", []⟩

def nChainC : Node := ⟨NodeType.PROJECT, "C", []⟩

def eRootA : Edge := ⟨nRoot, nChainA, EdgeType.PARENT_CHILD, []⟩

def eChainAB : Edge := ⟨nChainA, nChainB, EdgeType.PARENT_CHILD, []⟩

def eChainBC : Edge := ⟨nChainB, nChainC, EdgeType.PARENT_CHILD, []⟩

def chainGraph : Graph :=
  ((Graph.empty.add_edge eRootA).add_edge eChainAB).add_edge eChainBC

/-- C4 witness: the concrete chain root→A→B→C gives
`ancestors(C) = [B, A, root]`. -/
theorem C4_witness :
    chainGraph.get_resource_hierarchy nChainC EdgeType.PARENT_CHILD =
      Except.ok [nChainB, nChainA, nRoot] :=
  C4_chain_ancestors chainGraph EdgeType.PARENT_CHILD nRoot nChainA nChainB nChainC
    eRootA eChainAB eChainBC (by decide) rfl (by decide) rfl (by decide) rfl (by decide)
    (by decide) (by decide) (by decide) (by decide) (by decide) (by decide)

/-! ### C1: the containment parent relation and the descendant walk -/

/-- `p` is a containment parent of `c`: some stored edge of the given type
goes from (a node equal to) `p` to (a node equal to) `c`. -/
def isParent (g : Graph) (et : EdgeType) (p c : Node) : Prop :=
  ∃ e ∈ g.edges, e.type = et ∧ Node.beq e.src_node p = true ∧ Node.beq e.dst_node c = true

theorem isParent_congr (g : Graph) (et : EdgeType) {p c c' : Node}
    (hb : Node.beq c c' = true) (h : isParent g et p c) : isParent g et p c' := by
  obtain ⟨e, he, ht, hs, hd⟩ := h
  exact ⟨e, he, ht, hs, Node.beq_trans hd hb⟩

theorem length_le_one_eq {α : Type} {l : List α} (h : l.length ≤ 1) {a b : α}
    (ha : a ∈ l) (hb : b ∈ l) : a = b := by
  cases l with
  | nil => cases ha
  | cons x xs =>
    cases xs with
    | nil =>
      rw [List.mem_singleton] at ha hb
      rw [ha, hb]
    | cons y ys =>
      simp only [List.length_cons] at h
      omega

/-- With at most one incoming containment edge per node, containment
parents are unique up to node equality. -/
theorem parent_unique (g : Graph) (et : EdgeType)
    (H : ∀ c : Node, (g.get_incoming_edges c (some et)).length ≤ 1)
    {p q c : Node} (hp : isParent g et p c) (hq : isParent g et q c) :
    Node.beq p q = true := by
  obtain ⟨e1, he1, ht1, hs1, hd1⟩ := hp
  obtain ⟨e2, he2, ht2, hs2, hd2⟩ := hq
  have m1 : e1 ∈ g.get_incoming_edges c (some et) :=
    (mem_incoming_iff g c et e1).mpr ⟨he1, hd1, ht1⟩
  have m2 : e2 ∈ g.get_incoming_edges c (some et) :=
    (mem_incoming_iff g c et e2).mpr ⟨he2, hd2, ht2⟩
  have he : e1 = e2 := length_le_one_eq (H c) m1 m2
  subst he
  exact Node.beq_trans (Node.beq_symm hs1) hs2

theorem dedupN_aux (l acc : List Node)
    (hacc : List.Pairwise (fun a b => Node.beq a b = false) acc) :
    List.Pairwise (fun a b => Node.beq a b = false)
        (l.foldl (fun acc n => if memN acc n then acc else acc ++ [n]) acc) ∧
      ∀ a ∈ l.foldl (fun acc n => if memN acc n then acc else acc ++ [n]) acc,
        a ∈ acc ∨ a ∈ l := by
  induction l generalizing acc with
  | nil => exact ⟨hacc, fun a ha => Or.inl ha⟩
  | cons n l ih =>
    simp only [List.foldl_cons]
    cases hmem : memN acc n
    · have hacc' : List.Pairwise (fun a b => Node.beq a b = false) (acc ++ [n]) := by
        rw [List.pairwise_append]
        refine ⟨hacc, List.pairwise_singleton _ _, ?_⟩
        intro a ha b hb
        rw [List.mem_singleton] at hb
        subst hb
        cases hb2 : Node.beq a b
        · rfl
        · exact absurd (memN_eq_true_iff.mpr ⟨a, ha, hb2⟩) (by simp [hmem])
      obtain ⟨hP, hsub⟩ := ih (acc ++ [n]) hacc'
      rw [if_neg Bool.false_ne_true]
      refine ⟨hP, fun a ha => ?_⟩
      rcases hsub a ha with h' | h'
      · rcases List.mem_append.mp h' with h'' | h''
        · exact Or.inl h''
        · rw [List.mem_singleton] at h''
          subst h''
          exact Or.inr (List.mem_cons_self _ _)
      · exact Or.inr (List.mem_cons_of_mem n h')
    · obtain ⟨hP, hsub⟩ := ih acc hacc
      rw [if_pos rfl]
      exact ⟨hP, fun a ha => (hsub a ha).imp id (List.mem_cons_of_mem n)⟩

theorem dedupN_pairwise (l : List Node) :
    List.Pairwise (fun a b => Node.beq a b = false) (dedupN l) :=
  (dedupN_aux l [] List.Pairwise.nil).1

theorem mem_dedupN {l : List Node} {a : Node} (h : a ∈ dedupN l) : a ∈ l := by
  rcases (dedupN_aux l [] List.Pairwise.nil).2 a h with h' | h'
  · cases h'
  · exact h'

theorem neighbors_pairwise (g : Graph) (n : Node) (et : Option EdgeType)
    (dir : EdgeDirection) :
    List.Pairwise (fun a b => Node.beq a b = false) (g.get_neighbors n et dir) :=
  dedupN_pairwise _

/-- Membership in the outgoing neighborhood certifies parenthood. -/
theorem children_isParent (g : Graph) (et : EdgeType) (cur c : Node)
    (h : c ∈ g.get_neighbors cur (some et) EdgeDirection.OUTGOING) :
    isParent g et cur c := by
  have h1 : c ∈ (g.get_outgoing_edges cur (some et)).map (fun e => e.dst_node) := by
    have h' := mem_dedupN (l := ((g.get_outgoing_edges cur (some et)).map
      (fun e => e.dst_node)) ++ []) (by simpa [Graph.get_neighbors] using h)
    simpa using h'
  obtain ⟨e, he, rfl⟩ := List.mem_map.mp h1
  obtain ⟨he1, he2, he3⟩ := (mem_outgoing_iff g cur et e).mp he
  exact ⟨e, he1, he3, he2, Node.beq_refl _⟩

theorem descGo_step_skip (g : Graph) (et : EdgeType) (fuel : Nat) (current : Node)
    (stack visited acc : List Node) (hv : memN visited current = true) :
    descGo g et (fuel + 1) (current :: stack) visited acc =
      descGo g et fuel stack visited acc := by
  simp only [descGo]
  simp [hv]

theorem descGo_step_body (g : Graph) (et : EdgeType) (fuel : Nat) (current : Node)
    (stack visited acc : List Node) (hv : memN visited current = false) :
    descGo g et (fuel + 1) (current :: stack) visited acc =
      descGo g et fuel
        (((g.get_neighbors current (some et) EdgeDirection.OUTGOING).filter
            (fun c => !(memN (current :: visited) c))).reverse ++ stack)
        (current :: visited)
        (acc ++ (g.get_neighbors current (some et) EdgeDirection.OUTGOING).filter
          (fun c => !(memN (current :: visited) c))) := by
  simp only [descGo]
  simp [hv]

/-- The DFS invariant: in a containment relation with at most one parent
per node, the accumulated descendant list stays duplicate-free, because
every accumulated node's unique parent is already in the visited set and a
visited node's body never runs again. -/
theorem descGo_pairwise (g : Graph) (et : EdgeType)
    (H : ∀ c : Node, (g.get_incoming_edges c (some et)).length ≤ 1) :
    ∀ (fuel : Nat) (stack visited acc : List Node),
      List.Pairwise (fun a b => Node.beq a b = false) acc →
      (∀ c ∈ acc, ∃ p, isParent g et p c ∧ memN visited p = true) →
      List.Pairwise (fun a b => Node.beq a b = false)
        (descGo g et fuel stack visited acc) := by
  intro fuel
  induction fuel with
  | zero =>
    intro stack visited acc hacc _
    cases stack <;> exact hacc
  | succ f ih =>
    intro stack visited acc hacc hparents
    cases stack with
    | nil => exact hacc
    | cons current stack =>
      cases hv : memN visited current
      · rw [descGo_step_body g et f current stack visited acc hv]
        apply ih
        · rw [List.pairwise_append]
          refine ⟨hacc, List.Pairwise.filter _ (neighbors_pairwise g current (some et) _), ?_⟩
          intro a ha b hb
          obtain ⟨p, hp, hpv⟩ := hparents a ha
          have hbch := (List.mem_filter.mp hb).1
          have hbpar : isParent g et current b := children_isParent g et current b hbch
          cases hab : Node.beq a b
          · rfl
          · exfalso
            have hapar : isParent g et current a :=
              isParent_congr g et (Node.beq_symm hab) hbpar
            have hpc : Node.beq p current = true := parent_unique g et H hp hapar
            rw [memN_congr hpc] at hpv
            rw [hpv] at hv
            cases hv
        · intro c hc
          rcases List.mem_append.mp hc with hc | hc
          · obtain ⟨p, hp, hpv⟩ := hparents c hc
            exact ⟨p, hp, by rw [memN_cons, hpv, Bool.or_true]⟩
          · have hcch := (List.mem_filter.mp hc).1
            exact ⟨current, children_isParent g et current c hcch,
              by rw [memN_cons, Node.beq_refl, Bool.true_or]⟩
      · rw [descGo_step_skip g et f current stack visited acc hv]
        exact ih stack visited acc hacc hparents

theorem incoming_length_le_edges (g : Graph) (c : Node) (et : EdgeType) :
    (g.get_incoming_edges c (some et)).length ≤ g.edges.length := by
  unfold Graph.get_incoming_edges filterByType
  exact Nat.le_trans (List.length_filter_le _ _) (List.length_filter_le _ _)

/-- C1 (amended): in every graph whose containment relation gives each node
at most one incoming containment edge — the tree shape the spec's
containment contract requires — the descendant walk returns each node at
most once (the result is pairwise distinct under node equality), and a
leaf node (no outgoing containment edges) yields the empty sequence.
Without the tree-shape restriction the at-most-once part is false, see the
counterexample. -/
theorem C1_descendants_distinct_of_tree (g : Graph) (edge_type : EdgeType) (node : Node)
    (H : ∀ c : Node, (g.get_incoming_edges c (some edge_type)).length ≤ 1) :
    List.Pairwise (fun a b => Node.beq a b = false) (g.get_descendants node edge_type) ∧
      (g.get_outgoing_edges node (some edge_type) = [] →
        g.get_descendants node edge_type = []) := by
  constructor
  · unfold Graph.get_descendants
    exact descGo_pairwise g edge_type H _ [node] [] [] List.Pairwise.nil
      (fun c hc => absurd hc (List.not_mem_nil c))
  · intro hleaf
    unfold Graph.get_descendants
    obtain ⟨m, hm⟩ : ∃ m, (g.edges.length + 1) * (g.edges.length + 1) = m + 1 :=
      ⟨(g.edges.length + 1) * (g.edges.length + 1) - 1, by
        have hpos : 0 < (g.edges.length + 1) * (g.edges.length + 1) :=
          Nat.mul_pos (Nat.succ_pos _) (Nat.succ_pos _)
        omega⟩
    rw [hm, descGo_step_body g edge_type m node [] [] [] rfl]
    have hch : g.get_neighbors node (some edge_type) EdgeDirection.OUTGOING = [] := by
      unfold Graph.get_neighbors
      simp [hleaf, dedupN]
    rw [hch]
    simp only [List.filter_nil, List.reverse_nil, List.nil_append, List.append_nil]
    cases m <;> rfl

def nLeafP : Node := ⟨NodeType.FOLDER, "parent", []⟩

def nLeafC : Node := ⟨NodeType.PROJECT, "leaf", []⟩

def leafGraph : Graph :=
  Graph.empty.add_edge ⟨nLeafP, nLeafC, EdgeType.PARENT_CHILD, []⟩

/-- C1 witness: in the one-edge tree parent→leaf the descendants of the
leaf are pairwise distinct and empty. -/
theorem C1_witness :
    List.Pairwise (fun a b => Node.beq a b = false)
        (leafGraph.get_descendants nLeafC EdgeType.PARENT_CHILD) ∧
      leafGraph.get_descendants nLeafC EdgeType.PARENT_CHILD = [] := by
  have h := C1_descendants_distinct_of_tree leafGraph EdgeType.PARENT_CHILD nLeafC
    (fun c => Nat.le_trans (incoming_length_le_edges leafGraph c EdgeType.PARENT_CHILD)
      (by decide))
  exact ⟨h.1, h.2 (by decide)⟩

def nDagA : Node := ⟨NodeType.FOLDER, "A", []⟩

def nDagB : Node := ⟨NodeType.FOLDER, "B", []⟩

def nDagX : Node := ⟨NodeType.PROJECT, "X", []⟩

def dagGraph : Graph :=
  ((Graph.empty.add_edge ⟨nDagA, nDagX, EdgeType.PARENT_CHILD, []⟩).add_edge
      ⟨nDagA, nDagB, EdgeType.PARENT_CHILD, []⟩).add_edge
    ⟨nDagB, nDagX, EdgeType.PARENT_CHILD, []⟩

/-- C1 counterexample: with containment edges A→X, A→B and B→X (node X has
two parents, so the containment relation is not a tree, which
`get_descendants` never validates), the walk from A emits X twice: the
returned sequence is `[X, B, X]`, so it does not contain each node at most
once, refuting the claim as stated for arbitrary graphs. -/
theorem C1_counterexample :
    dagGraph.get_descendants nDagA EdgeType.PARENT_CHILD = [nDagX, nDagB, nDagX] ∧
      ¬ List.Pairwise (fun a b => Node.beq a b = false)
          (dagGraph.get_descendants nDagA EdgeType.PARENT_CHILD) := by
  have hlist : dagGraph.get_descendants nDagA EdgeType.PARENT_CHILD =
      [nDagX, nDagB, nDagX] := by decide
  refine ⟨hlist, ?_⟩
  rw [hlist]
  intro hp
  have hfalse := (List.pairwise_cons.mp hp).1 nDagX (by simp)
  rw [Node.beq_refl] at hfalse
  cases hfalse

/-! ### C3 and C10: structure of the resolved permission list -/

theorem permissions_eq_flatMap (g : Graph) (ty : NodeType) (i : String) (idn : Node)
    (hfind : g.get_node ty i = some idn) :
    g.get_identity_permissions ty i =
      (g.get_outgoing_edges idn (some EdgeType.PERMISSION)).flatMap
        (fun e => permBlock g e) := by
  unfold Graph.get_identity_permissions
  rw [hfind]

/-- Splitting the grant list splits the output into the corresponding
blocks, in the same order. -/
theorem permissions_split (g : Graph) (ty : NodeType) (i : String) (idn : Node)
    (pre post : List Edge) (e : Edge) (hfind : g.get_node ty i = some idn)
    (hsplit : g.get_outgoing_edges idn (some EdgeType.PERMISSION) = pre ++ e :: post) :
    g.get_identity_permissions ty i =
      pre.flatMap (fun f => permBlock g f) ++ permBlock g e ++
        post.flatMap (fun f => permBlock g f) := by
  rw [permissions_eq_flatMap g ty i idn hfind, hsplit, List.flatMap_append,
    List.flatMap_cons, List.append_assoc]

/-- Both the direct tuple and every descendant tuple of a grant occur in
the output. -/
theorem permissions_mem (g : Graph) (ty : NodeType) (i : String) (idn : Node)
    (pre post : List Edge) (e : Edge) (hfind : g.get_node ty i = some idn)
    (hsplit : g.get_outgoing_edges idn (some EdgeType.PERMISSION) = pre ++ e :: post) :
    (e.dst_node.id, e.dst_node.type.value, roleOf e) ∈
        g.get_identity_permissions ty i ∧
      ∀ d ∈ g.get_descendants e.dst_node EdgeType.PARENT_CHILD,
        (d.id, d.type.value, roleOf e) ∈ g.get_identity_permissions ty i := by
  rw [permissions_split g ty i idn pre post e hfind hsplit]
  constructor
  · apply List.mem_append_left
    apply List.mem_append_right
    exact List.mem_cons_self _ _
  · intro d hd
    apply List.mem_append_left
    apply List.mem_append_right
    unfold permBlock
    exact List.mem_cons_of_mem _ (List.mem_map_of_mem _ hd)

/-- C3: for a known identity, the permission list is grouped by the grant
edges in the order the store returns them (the adjacency-list order of the
identity's outgoing permission edges): each grant contributes the tuple of
its directly granted resource first, followed by one tuple per descendant
of that resource, all carrying the grant's role unmodified; consequently
the direct tuple and every descendant's tuple occur in the result. -/
theorem C3_permission_blocks_in_store_order (g : Graph) (ty : NodeType) (i : String)
    (idn : Node) (pre post : List Edge) (e : Edge)
    (hfind : g.get_node ty i = some idn)
    (hsplit : g.get_outgoing_edges idn (some EdgeType.PERMISSION) = pre ++ e :: post) :
    g.get_identity_permissions ty i =
        pre.flatMap (fun f => permBlock g f) ++
          ((e.dst_node.id, e.dst_node.type.value, roleOf e) ::
            (g.get_descendants e.dst_node EdgeType.PARENT_CHILD).map
              (fun d => (d.id, d.type.value, roleOf e))) ++
          post.flatMap (fun f => permBlock g f) ∧
      (e.dst_node.id, e.dst_node.type.value, roleOf e) ∈
        g.get_identity_permissions ty i ∧
      ∀ d ∈ g.get_descendants e.dst_node EdgeType.PARENT_CHILD,
        (d.id, d.type.value, roleOf e) ∈ g.get_identity_permissions ty i :=
  ⟨permissions_split g ty i idn pre post e hfind hsplit,
    (permissions_mem g ty i idn pre post e hfind hsplit).1,
    (permissions_mem g ty i idn pre post e hfind hsplit).2⟩

def permGraph : Graph :=
  (Graph.empty.add_edge eGrantViewer).add_edge eFolderProject

/-- C3 witness: with the grant (alice → folderF, viewer) and the
containment edge folderF→projectP, alice's permissions are exactly the
viewer block of folderF, containing both ("folderF", folder, viewer) and
("projectP", project, viewer). -/
theorem C3_witness :
    permGraph.get_identity_permissions NodeType.USER "alice" =
        ([] : List Edge).flatMap (fun f => permBlock permGraph f) ++
          ((eGrantViewer.dst_node.id, eGrantViewer.dst_node.type.value,
              roleOf eGrantViewer) ::
            (permGraph.get_descendants eGrantViewer.dst_node EdgeType.PARENT_CHILD).map
              (fun d => (d.id, d.type.value, roleOf eGrantViewer))) ++
          ([] : List Edge).flatMap (fun f => permBlock permGraph f) ∧
      ("folderF", "folder", "viewer") ∈
        permGraph.get_identity_permissions NodeType.USER "alice" ∧
      ("projectP", "project", "viewer") ∈
        permGraph.get_identity_permissions NodeType.USER "alice" := by
  have h := C3_permission_blocks_in_store_order permGraph NodeType.USER "alice" uAlice
    [] [] eGrantViewer (by decide) (by decide)
  exact ⟨h.1, h.2.1, h.2.2 rProjectP (by decide)⟩

/-- C10: a permission edge whose attributes hold no "role" key does not
fail the resolver: its role resolves to the empty string, and the directly
granted resource's tuple and every descendant's tuple are emitted with the
empty-string role. -/
theorem C10_missing_role_is_empty_string (g : Graph) (ty : NodeType) (i : String)
    (idn : Node) (pre post : List Edge) (e : Edge)
    (hfind : g.get_node ty i = some idn)
    (hsplit : g.get_outgoing_edges idn (some EdgeType.PERMISSION) = pre ++ e :: post)
    (hnorole : e.metadata.lookup "role" = none) :
    roleOf e = "" ∧
      (e.dst_node.id, e.dst_node.type.value, "") ∈
        g.get_identity_permissions ty i ∧
      ∀ d ∈ g.get_descendants e.dst_node EdgeType.PARENT_CHILD,
        (d.id, d.type.value, "") ∈ g.get_identity_permissions ty i := by
  have hrole : roleOf e = "" := by
    rw [roleOf, hnorole]
    rfl
  have h := permissions_mem g ty i idn pre post e hfind hsplit
  rw [hrole] at h
  exact ⟨hrole, h.1, h.2⟩

def eGrantNoRole : Edge := ⟨uAlice, rFolderF, EdgeType.PERMISSION, []⟩

def noRoleGraph : Graph :=
  (Graph.empty.add_edge eGrantNoRole).add_edge eFolderProject

/-- C10 witness: a role-less grant on folderF yields ("folderF", folder, "")
and ("projectP", project, "") without an error. -/
theorem C10_witness :
    roleOf eGrantNoRole = "" ∧
      ("folderF", "folder", "") ∈
        noRoleGraph.get_identity_permissions NodeType.USER "alice" ∧
      ("projectP", "project", "") ∈
        noRoleGraph.get_identity_permissions NodeType.USER "alice" := by
  have h := C10_missing_role_is_empty_string noRoleGraph NodeType.USER "alice" uAlice
    [] [] eGrantNoRole (by decide) (by decide) (by decide)
  exact ⟨h.1, h.2.1, h.2.2 rProjectP (by decide)⟩

end PermissionGraph
